import Mathlib

/-!
Shallow embedding of the busy-beaver search program (`src/main.rs`) and
verification of its specification claims.

Modelling conventions:
* Rust `usize` arithmetic is modelled on `Nat` with explicit wrapping
  (`% 2^64`), matching release-build two's-complement semantics; the
  helper `usize_sub` is wrapping subtraction and `i64_cast` is the
  `as i64` reinterpretation of a `usize` value.
* Rust operations that can panic (out-of-bounds indexing) are modelled
  with `Option`: a `none` result stands for a panic, which is distinct
  from a normal `None`/`Option::None` value returned by the Rust code.
  Hence the interpreter `busy_beaver` returns `Option (Option Stats)`:
  the outer layer is panic/no-panic, the inner layer is the Rust
  `Option<Stats>` result (`none` = run abandoned by the step ceiling).
* `u8` tape symbols are modelled as `Nat`; the `i as u8` truncation in
  `generate_instructions` is modelled as `% 256`.
-/

namespace BusyBeaver

/-- Size of the `usize` value space (64-bit platform). -/
def USIZE : Nat := 2 ^ 64

/-- Wrapping (release-mode) `usize` subtraction `a - b`. -/
def usize_sub (a b : Nat) : Nat := (a % USIZE + (USIZE - b % USIZE)) % USIZE

/-- Reinterpretation of a `usize` bit pattern as `i64` (the `as i64` cast). -/
def i64_cast (n : Nat) : Int :=
  if n % USIZE < 2 ^ 63 then ((n % USIZE : Nat) : Int)
  else ((n % USIZE : Nat) : Int) - (USIZE : Int)

/-- Directions the typewriter head can move (`enum Direction`). -/
inductive Direction where
  | Left : Direction
  | Right : Direction
deriving DecidableEq, Repr

/-- States of the Turing machine (`enum State`): a card index or `Halt`. -/
inductive State where
  | Card : Nat → State
  | Halt : State
deriving DecidableEq, Repr

/-- One instruction (`struct Instructions`): symbol to write, head direction,
next state.  The `u8` symbol is modelled as `Nat`. -/
structure Instructions where
  write : Nat
  direction : Direction
  state : State
deriving DecidableEq, Repr

/-- A card: the instruction row of one machine state (`struct Card`). -/
structure Card where
  insts : List Instructions
deriving DecidableEq, Repr

/-- A complete transition table (`struct Cards`). -/
structure Cards where
  cards : List Card
deriving DecidableEq, Repr

/-- The tape (`struct Tape`), a growable vector of `u8` cells. -/
structure Tape where
  cells : List Nat
deriving DecidableEq, Repr

/-- The typewriter (`struct Typewriter`): holds the head position (`usize`). -/
structure Typewriter where
  head : Nat
deriving DecidableEq, Repr

/-- The collection of generated machines (`struct Machines`). -/
structure Machines where
  machines : List Cards
deriving DecidableEq, Repr

/-- Per-run statistics (`struct Stats`). -/
structure Stats where
  cards : Cards
  score : Nat
  action : Nat
  tapes : List Tape
  head_positions : List Int
deriving DecidableEq, Repr

/-- `Tape::extend`: bump the head one step right, then insert a zero cell at
the front and push a zero cell at the back of the tape. -/
def Tape.extend (t : Tape) (tw : Typewriter) : Typewriter × Tape :=
  (⟨(tw.head + 1) % USIZE⟩, ⟨0 :: t.cells ++ [0]⟩)

/-- `Typewriter::move_head`: move the head one cell in `dir` (wrapping `usize`
arithmetic), then extend the tape if the head left the materialized range.
The Rust guard `self.head < 0` is identically false for `usize` and is
omitted; `tape.0.len() - 1` is wrapping `usize` subtraction. -/
def Typewriter.move_head (tw : Typewriter) (dir : Direction) (tape : Tape) :
    Typewriter × Tape :=
  let h : Nat :=
    match dir with
    | Direction.Left => usize_sub tw.head 1
    | Direction.Right => (tw.head + 1) % USIZE
  if h > usize_sub tape.cells.length 1 then Tape.extend tape ⟨h⟩ else (⟨h⟩, tape)

/-- `Typewriter::write`: write `sym` at the head.  Rust indexing panics when
the head is out of bounds; a panic is modelled as `none`. -/
def Typewriter.write (tw : Typewriter) (sym : Nat) (tape : Tape) : Option Tape :=
  if tw.head < tape.cells.length then some ⟨tape.cells.set tw.head sym⟩ else none

/-- `Typewriter::read`: read the cell under the head (panic = `none`). -/
def Typewriter.read (tw : Typewriter) (tape : Tape) : Option Nat :=
  tape.cells[tw.head]?

/-- `Card::get_instruction`: fetch the instruction indexed by the symbol read
from the tape (either indexing panic = `none`). -/
def Card.get_instruction (c : Card) (tw : Typewriter) (tape : Tape) :
    Option Instructions :=
  (tw.read tape).bind fun i => c.insts[i]?

/-- `Cards::get_card` (panicking index = `none`). -/
def Cards.get_card (cs : Cards) (ind : Nat) : Option Card :=
  cs.cards[ind]?

/-- `Cards::get_states`: collect, for every card, the next-states of its first
two instructions (`card.0[0]` and `card.0[1]`).  Rust panics when a card has
fewer than two instructions: modelled as `none`. -/
def Cards.get_states (cs : Cards) : Option (List State) :=
  cs.cards.foldlM
    (fun states card => do
      let inst1 ← card.insts[0]?
      let inst2 ← card.insts[1]?
      pure (states ++ [inst1.state, inst2.state]))
    []

/-- `Cards::contains_halt_state` (propagates the `get_states` panic). -/
def Cards.contains_halt_state (cs : Cards) : Option Bool :=
  (cs.get_states).map fun states => states.contains State.Halt

/-- The recursive backtracking combination generator `generate_combinations`.
The Rust loop index `ind` is represented by the remaining suffix `rem` of
`input` (every call site passes `ind = 0`, i.e. `rem = input`).  The mutable
`input_holder` push/pop pair around each branch is represented by passing the
extended holder down; `res.push` becomes the singleton list in the base case.
The Rust comparison `r < max_depth - 1` underflows for `max_depth == 0`
(yielding an unbounded recursion); the embedding uses truncated `Nat`
subtraction and is faithful for `max_depth ≥ 1`, which covers every call the
program makes. -/
def generate_combinations {T : Type} (input : List T) (max_depth : Nat) :
    List T → Nat → List T → List (List T)
  | [], _, _ => []
  | x :: rest, r, input_holder =>
    (if _h : r < max_depth - 1 then
      generate_combinations input max_depth input (r + 1) (input_holder ++ [x])
    else
      [input_holder ++ [x]]) ++
    generate_combinations input max_depth rest r input_holder
termination_by rem r _ => (max_depth - 1 - r, rem.length)
decreasing_by
  · exact Prod.Lex.left _ _ (by omega)
  · exact Prod.Lex.right _ (by simp)

/-- `Machines::generate_instructions`: the primitive instruction alphabet,
built by the triple loop over next-states (`Halt` first, then the card
indices), the two directions, and the `K` symbols (`i as u8` = `% 256`). -/
def Machines.generate_instructions (num_cards num_symbols : Nat) :
    List Instructions :=
  let sym : List Nat := (List.range num_symbols).map (fun i => i % 256)
  let dir : List Direction := [Direction.Left, Direction.Right]
  let states : List State := State.Halt :: (List.range num_cards).map State.Card
  (states.map fun s =>
    (dir.map fun d =>
      sym.map fun sy => Instructions.mk sy d s).flatten).flatten

/-- `Machines::generate_all_possible_cards`: every combination of length
`num_symbols` over the instruction alphabet, wrapped as `Card`s. -/
def Machines.generate_all_possible_cards (inst : List Instructions)
    (num_symbols : Nat) : List Card :=
  (generate_combinations inst num_symbols inst 0 []).map Card.mk

/-- Rust iterator `filter` whose predicate may panic (`none`). -/
def filter_opt {α : Type} (p : α → Option Bool) : List α → Option (List α)
  | [] => some []
  | x :: rest => do
    let b ← p x
    let r ← filter_opt p rest
    pure (if b then x :: r else r)

/-- The machine tables enumerated by `generate_all_possible_machines` before
the halt filter: every combination of `num_cards` cards. -/
def Machines.enumerate_tables (cards : List Card) (num_cards : Nat) :
    List Cards :=
  (generate_combinations cards num_cards cards 0 []).map Cards.mk

/-- `Machines::generate_all_possible_machines`: the enumerated tables filtered
by `contains_halt_state` (the `num_allocate` argument of the Rust function
only pre-sizes the vector and has no semantic effect). -/
def Machines.generate_all_possible_machines (cards : List Card)
    (num_cards : Nat) : Option (List Cards) :=
  filter_opt Cards.contains_halt_state (Machines.enumerate_tables cards num_cards)

/-- `Machines::generate`. -/
def Machines.generate (num_cards num_symbols : Nat) : Option Machines := do
  let inst := Machines.generate_instructions num_cards num_symbols
  let cards := Machines.generate_all_possible_cards inst num_symbols
  let machines ← Machines.generate_all_possible_machines cards num_cards
  pure (Machines.mk machines)

/-- `Stats::init`. -/
def Stats.init (cards : Cards) : Stats :=
  { cards := cards, action := 0, score := 0, tapes := [], head_positions := [] }

/-- `Stats::default`: a dummy single-card table used by `main` as the initial
leaderboard holder. -/
def Stats.default : Stats :=
  let inst := Instructions.mk 0 Direction.Left State.Halt
  let card := Card.mk [inst]
  { cards := Cards.mk [card], action := 0, score := 0, tapes := [],
    head_positions := [] }

/-- `Stats::update`: recompute the score (cells equal to the literal `1`),
push a snapshot of the tape, set `action` to the snapshot count minus one and
record the head offset `(tw.head - tape.0.len()/2) as i64` (wrapping `usize`
subtraction followed by the `i64` cast). -/
def Stats.update (s : Stats) (tape : Tape) (tw : Typewriter) : Stats :=
  let tapes := s.tapes ++ [tape]
  { s with
    score := (tape.cells.filter fun x => x == 1).length,
    tapes := tapes,
    action := tapes.length - 1,
    head_positions :=
      s.head_positions ++ [i64_cast (usize_sub tw.head (tape.cells.length / 2))] }

/-- The loop state of `busy_beaver`: tape, typewriter, statistics and the
current card (the `current_card` reference). -/
structure BBConfig where
  tape : Tape
  tw : Typewriter
  stats : Stats
  cur : Card
deriving DecidableEq, Repr

/-- Outcome of one iteration of the `busy_beaver` loop body. -/
inductive StepOutcome where
  | cont : BBConfig → StepOutcome
  | halted : Stats → StepOutcome
  | panicked : StepOutcome
deriving DecidableEq, Repr

/-- One iteration of the `busy_beaver` loop body: fetch the instruction for
the read symbol, write, move the head, update the statistics, then transition
(returning the statistics on `Halt`, fetching the next card otherwise). -/
def bbStep (cards : Cards) (c : BBConfig) : StepOutcome :=
  match c.cur.get_instruction c.tw c.tape with
  | none => StepOutcome.panicked
  | some inst =>
    match c.tw.write inst.write c.tape with
    | none => StepOutcome.panicked
    | some tape1 =>
      let mt := Typewriter.move_head c.tw inst.direction tape1
      let stats2 := c.stats.update mt.2 mt.1
      match inst.state with
      | State.Halt => StepOutcome.halted stats2
      | State.Card i =>
        match cards.get_card i with
        | none => StepOutcome.panicked
        | some card2 =>
          StepOutcome.cont { tape := mt.2, tw := mt.1, stats := stats2, cur := card2 }

/-- The `busy_beaver` loop: run iterations, incrementing `rounds` after each
non-halting iteration and breaking (Rust returns `None`) once `rounds > 100`.
Outer `none` = panic, `some none` = abandoned, `some (some s)` = halted. -/
def bbLoop (cards : Cards) (c : BBConfig) (rounds : Nat) : Option (Option Stats) :=
  match bbStep cards c with
  | StepOutcome.panicked => none
  | StepOutcome.halted s => some (some s)
  | StepOutcome.cont c' =>
    if rounds + 1 > 100 then some none else bbLoop cards c' (rounds + 1)
termination_by 100 - rounds
decreasing_by omega

/-- The initial configuration built by `busy_beaver`: tape `[0]`, head `0`,
card 0 fetched (panic = `none`), and one initial statistics snapshot. -/
def bb_init (cards : Cards) : Option BBConfig :=
  let tape : Tape := ⟨[0]⟩
  let tw : Typewriter := ⟨0⟩
  (cards.get_card 0).map fun c0 =>
    { tape := tape, tw := tw, stats := (Stats.init cards).update tape tw, cur := c0 }

/-- `busy_beaver`. -/
def busy_beaver (cards : Cards) : Option (Option Stats) :=
  match bb_init cards with
  | none => none
  | some c0 => bbLoop cards c0 0

/-- Number of loop-body iterations `busy_beaver` executes from a given loop
state (observation function over the embedded loop). -/
def bb_iterations (cards : Cards) (c : BBConfig) (rounds : Nat) : Nat :=
  match bbStep cards c with
  | StepOutcome.cont c' =>
    if rounds + 1 > 100 then 1 else 1 + bb_iterations cards c' (rounds + 1)
  | _ => 1
termination_by 100 - rounds
decreasing_by omega

/-- Number of loop-body iterations of a whole `busy_beaver` run (`none` when
initialization panics). -/
def bb_iterations_from_start (cards : Cards) : Option Nat :=
  (bb_init cards).map fun c0 => bb_iterations cards c0 0

/-- `highest_score` (Rust panics on an empty vector: `none`). -/
def highest_score (stats : List Stats) : Option Stats :=
  match stats[0]? with
  | none => none
  | some first =>
    some (stats.foldl (fun leader s => if s.score > leader.score then s else leader)
      first)

/-- `highest_action` (Rust panics on an empty vector: `none`). -/
def highest_action (stats : List Stats) : Option Stats :=
  match stats[0]? with
  | none => none
  | some first =>
    some (stats.foldl (fun leader s => if s.action > leader.action then s else leader)
      first)

/-- The four leaderboard locals of `main`. -/
structure MainSel where
  best_score : Nat
  best_score_holder : Stats
  best_action : Nat
  best_action_holder : Stats
deriving DecidableEq, Repr

/-- One iteration of `main`'s leaderboard loop for a single run result
(`None` results are skipped; the action check precedes the score check). -/
def main_step (acc : MainSel) (r : Option Stats) : MainSel :=
  match r with
  | some stats =>
    let acc1 :=
      if stats.action > acc.best_action then
        { acc with best_action_holder := stats, best_action := stats.action }
      else acc
    if stats.score > acc1.best_score then
      { acc1 with best_score_holder := stats, best_score := stats.score }
    else acc1
  | none => acc

/-- The leaderboard fold of `main` (lines 382-399): run every machine and
track the best score and best action, starting from `Stats::default` holders
(a `busy_beaver` panic aborts `main`: outer `none`). -/
def main_selection (machines : List Cards) : Option MainSel :=
  machines.foldlM (fun acc m => (busy_beaver m).map (main_step acc))
    ⟨0, Stats.default, 0, Stats.default⟩

/-! Structural-fuel evaluator twins for the well-founded recursive functions
(the well-founded definitions do not reduce definitionally, so concrete
computations go through these provably equal versions). -/

/-- Structural evaluator for `generate_combinations` on a full pass
(`rem = input`), with `fuel = max_depth - 1 - r` remaining levels. -/
def gc_eval {T : Type} (input : List T) : Nat → List T → List (List T)
  | 0, holder => input.map fun x => holder ++ [x]
  | fuel + 1, holder =>
    (input.map fun x => gc_eval input fuel (holder ++ [x])).flatten

theorem generate_combinations_cons {T : Type} (input : List T)
    (max_depth : Nat) (x : T) (rest : List T) (r : Nat) (holder : List T) :
    generate_combinations input max_depth (x :: rest) r holder =
      (if r < max_depth - 1 then
        generate_combinations input max_depth input (r + 1) (holder ++ [x])
      else [holder ++ [x]]) ++
      generate_combinations input max_depth rest r holder := by
  rw [generate_combinations]
  split <;> simp_all

theorem generate_combinations_last {T : Type} (input : List T)
    (max_depth : Nat) (r : Nat) (holder : List T) (hr : ¬ r < max_depth - 1) :
    ∀ rem : List T,
      generate_combinations input max_depth rem r holder =
        rem.map fun x => holder ++ [x]
  | [] => by rw [generate_combinations]; rfl
  | x :: rest => by
    rw [generate_combinations_cons, if_neg hr,
      generate_combinations_last input max_depth r holder hr rest]
    rfl

theorem generate_combinations_eq_gc_eval {T : Type} (input : List T)
    (max_depth : Nat) :
    ∀ (fuel r : Nat) (holder : List T), r + fuel + 1 = max_depth →
      generate_combinations input max_depth input r holder =
        gc_eval input fuel holder := by
  intro fuel
  induction fuel with
  | zero =>
    intro r holder h
    rw [generate_combinations_last input max_depth r holder (by omega) input]
    rfl
  | succ f ih =>
    intro r holder h
    have hstep : ∀ rem : List T,
        generate_combinations input max_depth rem r holder =
          (rem.map fun x => gc_eval input f (holder ++ [x])).flatten := by
      intro rem
      induction rem with
      | nil => simp [generate_combinations]
      | cons x rest ihr =>
        rw [generate_combinations_cons, if_pos (by omega), ihr,
          ih (r + 1) (holder ++ [x]) (by omega)]
        rfl
    rw [hstep input]
    rfl

/-- Structural evaluator for the `busy_beaver` loop, with
`fuel = 100 - rounds`. -/
def bbLoop_eval (cards : Cards) : Nat → BBConfig → Option (Option Stats)
  | fuel, c =>
    match bbStep cards c with
    | StepOutcome.panicked => none
    | StepOutcome.halted s => some (some s)
    | StepOutcome.cont c' =>
      match fuel with
      | 0 => some none
      | f + 1 => bbLoop_eval cards f c'

theorem bbLoop_eq_eval (cards : Cards) :
    ∀ (fuel rounds : Nat) (c : BBConfig), rounds + fuel = 100 →
      bbLoop cards c rounds = bbLoop_eval cards fuel c := by
  intro fuel
  induction fuel with
  | zero =>
    intro rounds c h
    rw [bbLoop, bbLoop_eval]
    cases bbStep cards c <;> simp [if_pos (by omega : rounds + 1 > 100)]
  | succ f ih =>
    intro rounds c h
    rw [bbLoop, bbLoop_eval]
    cases bbStep cards c with
    | panicked => rfl
    | halted s => rfl
    | cont c' =>
      simp only [if_neg (by omega : ¬ rounds + 1 > 100)]
      exact ih (rounds + 1) c' (by omega)

/-- Structural evaluator for `busy_beaver`. -/
def busy_beaver_eval_fn (cards : Cards) : Option (Option Stats) :=
  match bb_init cards with
  | none => none
  | some c0 => bbLoop_eval cards 100 c0

theorem busy_beaver_eq_eval (cards : Cards) :
    busy_beaver cards = busy_beaver_eval_fn cards := by
  rw [busy_beaver, busy_beaver_eval_fn]
  cases bb_init cards with
  | none => rfl
  | some c0 => exact bbLoop_eq_eval cards 100 0 c0 rfl

/-- Structural evaluator for `bb_iterations`, with `fuel = 100 - rounds`. -/
def bb_iterations_eval (cards : Cards) : Nat → BBConfig → Nat
  | fuel, c =>
    match bbStep cards c with
    | StepOutcome.cont c' =>
      match fuel with
      | 0 => 1
      | f + 1 => 1 + bb_iterations_eval cards f c'
    | _ => 1

theorem bb_iterations_eq_eval (cards : Cards) :
    ∀ (fuel rounds : Nat) (c : BBConfig), rounds + fuel = 100 →
      bb_iterations cards c rounds = bb_iterations_eval cards fuel c := by
  intro fuel
  induction fuel with
  | zero =>
    intro rounds c h
    rw [bb_iterations, bb_iterations_eval]
    cases bbStep cards c <;> simp [if_pos (by omega : rounds + 1 > 100)]
  | succ f ih =>
    intro rounds c h
    rw [bb_iterations, bb_iterations_eval]
    cases bbStep cards c with
    | panicked => rfl
    | halted s => rfl
    | cont c' =>
      simp only [if_neg (by omega : ¬ rounds + 1 > 100)]
      rw [ih (rounds + 1) c' (by omega)]

/-- Structural evaluator for `Machines.generate`. -/
def Machines.generate_eval (num_cards num_symbols : Nat) : Option Machines :=
  let inst := Machines.generate_instructions num_cards num_symbols
  let cards := (gc_eval inst (num_symbols - 1) []).map Card.mk
  (filter_opt Cards.contains_halt_state
    ((gc_eval cards (num_cards - 1) []).map Cards.mk)).map Machines.mk

theorem Machines.generate_eq_eval (N K : Nat) (hN : 1 <= N) (hK : 1 <= K) :
    Machines.generate N K = Machines.generate_eval N K := by
  simp only [Machines.generate, Machines.generate_eval,
    Machines.generate_all_possible_machines, Machines.enumerate_tables,
    Machines.generate_all_possible_cards]
  rw [generate_combinations_eq_gc_eval _ K (K - 1) 0 [] (by omega),
    generate_combinations_eq_gc_eval _ N (N - 1) 0 [] (by omega)]
  cases filter_opt Cards.contains_halt_state
      ((gc_eval ((gc_eval (Machines.generate_instructions N K) (K - 1) []).map
        Card.mk) (N - 1) []).map Cards.mk) <;> rfl

/-! Concrete fixtures used by witnesses and counterexamples. -/

/-- The 1-state 2-symbol table `[write=1,dir=Right,next=Halt;
write=0,dir=Right,next=Card(0)]` named by the spec's concrete scenario. -/
def bb1_table : Cards :=
  Cards.mk [Card.mk [⟨1, Direction.Right, State.Halt⟩,
                     ⟨0, Direction.Right, State.Card 0⟩]]

/-- A well-formed 1-state 2-symbol table that never halts (every instruction
moves right and stays in card 0). -/
def loop_table : Cards :=
  Cards.mk [Card.mk [⟨0, Direction.Right, State.Card 0⟩,
                     ⟨0, Direction.Right, State.Card 0⟩]]

/-- A 1-state 3-symbol table that writes the symbol `2` and halts at once. -/
def write2_table : Cards :=
  Cards.mk [Card.mk [⟨2, Direction.Right, State.Halt⟩,
                     ⟨0, Direction.Right, State.Halt⟩,
                     ⟨0, Direction.Right, State.Halt⟩]]

/-- A 1-state 2-symbol table that writes `1`, moves left and halts. -/
def left_halt_table : Cards :=
  Cards.mk [Card.mk [⟨1, Direction.Left, State.Halt⟩,
                     ⟨0, Direction.Left, State.Halt⟩]]

/-- A 1-state 3-symbol table whose only halting instruction sits in symbol
slot `2` (slots 0 and 1 both point back to card 0). -/
def halt_in_slot2_table : Cards :=
  Cards.mk [Card.mk [⟨0, Direction.Left, State.Card 0⟩,
                     ⟨0, Direction.Left, State.Card 0⟩,
                     ⟨0, Direction.Left, State.Halt⟩]]

/-! Arithmetic helper lemmas for the wrapping `usize` model. -/

theorem usize_pos : 0 < USIZE := by norm_num [USIZE]

theorem usize_sub_eq_sub {a : Nat} (b : Nat) (h1 : b ≤ a) (h2 : a < USIZE)
    (h3 : b < USIZE) : usize_sub a b = a - b := by
  unfold usize_sub
  rw [Nat.mod_eq_of_lt h2, Nat.mod_eq_of_lt h3]
  have : a + (USIZE - b) = (a - b) + USIZE := by omega
  rw [this, Nat.add_mod_right, Nat.mod_eq_of_lt (by omega)]

theorem usize_sub_zero_one : usize_sub 0 1 = USIZE - 1 := by
  have hU : 1 < USIZE := by norm_num [USIZE]
  unfold usize_sub
  rw [Nat.zero_mod, Nat.mod_eq_of_lt hU, Nat.zero_add, Nat.mod_eq_of_lt (by omega)]

theorem move_head_left_zero (tape : Tape) (hl : tape.cells.length < USIZE)
    (h1 : 1 ≤ tape.cells.length) :
    Typewriter.move_head ⟨0⟩ Direction.Left tape = (⟨0⟩, ⟨0 :: tape.cells ++ [0]⟩) := by
  have h1U : 1 < USIZE := by norm_num [USIZE]
  have hsub : usize_sub tape.cells.length 1 = tape.cells.length - 1 :=
    usize_sub_eq_sub 1 h1 hl h1U
  simp only [Typewriter.move_head, Tape.extend, usize_sub_zero_one, hsub]
  rw [if_pos (show USIZE - 1 > tape.cells.length - 1 by omega)]
  have he : USIZE - 1 + 1 = USIZE := by omega
  simp [he, Nat.mod_self]

theorem move_head_left_pos (tw : Typewriter) (tape : Tape)
    (h0 : 0 < tw.head) (hh : tw.head < tape.cells.length)
    (hl : tape.cells.length < USIZE) :
    Typewriter.move_head tw Direction.Left tape = (⟨tw.head - 1⟩, tape) := by
  have h1U : 1 < USIZE := by norm_num [USIZE]
  have hsub : usize_sub tape.cells.length 1 = tape.cells.length - 1 :=
    usize_sub_eq_sub 1 (by omega) hl h1U
  have hsubh : usize_sub tw.head 1 = tw.head - 1 :=
    usize_sub_eq_sub 1 h0 (by omega) h1U
  simp only [Typewriter.move_head, Tape.extend, hsubh, hsub]
  rw [if_neg (show ¬(tw.head - 1 > tape.cells.length - 1) by omega)]

theorem move_head_right_edge (tw : Typewriter) (tape : Tape)
    (hh : tw.head + 1 = tape.cells.length) (hl : tape.cells.length + 1 < USIZE) :
    Typewriter.move_head tw Direction.Right tape =
      (⟨tape.cells.length + 1⟩, ⟨0 :: tape.cells ++ [0]⟩) := by
  have h1U : 1 < USIZE := by norm_num [USIZE]
  have hsub : usize_sub tape.cells.length 1 = tape.cells.length - 1 :=
    usize_sub_eq_sub 1 (by omega) (by omega) h1U
  have hmod : (tw.head + 1) % USIZE = tw.head + 1 := Nat.mod_eq_of_lt (by omega)
  simp only [Typewriter.move_head, Tape.extend, hmod, hsub]
  rw [if_pos (show tw.head + 1 > tape.cells.length - 1 by omega)]
  have he : (tw.head + 1 + 1) % USIZE = tape.cells.length + 1 := by
    rw [Nat.mod_eq_of_lt (by omega)]; omega
  simp [he]

theorem move_head_right_in (tw : Typewriter) (tape : Tape)
    (hh : tw.head + 1 < tape.cells.length) (hl : tape.cells.length < USIZE) :
    Typewriter.move_head tw Direction.Right tape = (⟨tw.head + 1⟩, tape) := by
  have h1U : 1 < USIZE := by norm_num [USIZE]
  have hsub : usize_sub tape.cells.length 1 = tape.cells.length - 1 :=
    usize_sub_eq_sub 1 (by omega) hl h1U
  have hmod : (tw.head + 1) % USIZE = tw.head + 1 := Nat.mod_eq_of_lt (by omega)
  simp only [Typewriter.move_head, Tape.extend, hmod, hsub]
  rw [if_neg (show ¬(tw.head + 1 > tape.cells.length - 1) by omega)]

theorem move_head_ok (tw : Typewriter) (dir : Direction) (tape : Tape)
    (hh : tw.head < tape.cells.length) (hl : tape.cells.length + 1 < USIZE) :
    (Typewriter.move_head tw dir tape).1.head <
      (Typewriter.move_head tw dir tape).2.cells.length ∧
    ((Typewriter.move_head tw dir tape).2.cells = tape.cells ∨
      (Typewriter.move_head tw dir tape).2.cells = 0 :: tape.cells ++ [0]) := by
  cases dir with
  | Left =>
    rcases Nat.eq_zero_or_pos tw.head with h0 | hpos
    · have htw : tw = ⟨0⟩ := by cases tw; simp_all
      rw [htw, move_head_left_zero tape (by omega) (by omega)]
      constructor
      · simp
      · right; rfl
    · rw [move_head_left_pos tw tape hpos hh (by omega)]
      exact ⟨by simp; omega, Or.inl rfl⟩
  | Right =>
    rcases Nat.lt_or_ge (tw.head + 1) tape.cells.length with hin | hedge
    · rw [move_head_right_in tw tape hin (by omega)]
      exact ⟨by simp; omega, Or.inl rfl⟩
    · have hh1 : tw.head + 1 = tape.cells.length := by omega
      rw [move_head_right_edge tw tape hh1 hl]
      constructor
      · simp
      · right; rfl
/-- Checked (panicking) / natural-number reading of the head-offset
expression `tw.head - tape.0.len()/2` recorded by `Stats::update`: the
subtraction has no value when it underflows. -/
def head_position_checked (head len : Nat) : Option Int :=
  if len / 2 ≤ head then some ((head : Int) - ((len / 2 : Nat) : Int)) else none

/-- The statistics of the completed `left_halt_table` run, written out. -/
def left_halt_stats : Stats :=
  { cards := left_halt_table, score := 1, action := 1,
    tapes := [⟨[0]⟩, ⟨[0, 1, 0]⟩], head_positions := [0, -1] }

/-- C2, counterexample: moving right off the one-cell tape `[1]` yields the
tape `[0, 1, 0]`: `Tape::extend` adds a zero cell at both edges, not a single
zero cell at the corresponding (right) edge, which would give `[1, 0]`. -/
theorem C2_counterexample :
    (Typewriter.move_head ⟨0⟩ Direction.Right ⟨[1]⟩).2.cells = [0, 1, 0] ∧
    (Typewriter.move_head ⟨0⟩ Direction.Right ⟨[1]⟩).2.cells ≠ [1] ++ [0] := by
  decide

/-- C2 (amended): whenever a head move in the instruction's direction would
leave the materialized tape (head at index 0 moving Left, or at the last
index moving Right), the tape is extended by one zero cell at each edge (two
cells in total), the move succeeds, and after every call to `move_head` the
head indexes a valid cell of the tape. -/
theorem C2_move_head_extends (tw : Typewriter) (dir : Direction) (tape : Tape)
    (hh : tw.head < tape.cells.length) (hl : tape.cells.length + 1 < USIZE) :
    (((dir = Direction.Left ∧ tw.head = 0) ∨
      (dir = Direction.Right ∧ tw.head + 1 = tape.cells.length)) →
      (Typewriter.move_head tw dir tape).2.cells = 0 :: tape.cells ++ [0]) ∧
    (Typewriter.move_head tw dir tape).1.head <
      (Typewriter.move_head tw dir tape).2.cells.length := by
  refine ⟨?_, (move_head_ok tw dir tape hh hl).1⟩
  rintro (⟨hd, h0⟩ | ⟨hd, he⟩)
  · subst hd
    have htw : tw = ⟨0⟩ := by cases tw; simp_all
    rw [htw, move_head_left_zero tape (by omega) (by omega)]
  · subst hd
    rw [move_head_right_edge tw tape he hl]

/-- Witness for the amended C2 at a concrete input (left move at head 0). -/
theorem C2_move_head_extends_witness :
    (Typewriter.move_head ⟨0⟩ Direction.Left ⟨[5]⟩).2.cells = 0 :: [5] ++ [0] ∧
    (Typewriter.move_head ⟨0⟩ Direction.Left ⟨[5]⟩).1.head <
      (Typewriter.move_head ⟨0⟩ Direction.Left ⟨[5]⟩).2.cells.length :=
  have h := C2_move_head_extends ⟨0⟩ Direction.Left ⟨[5]⟩ (by decide)
    (by norm_num [USIZE])
  ⟨h.1 (Or.inl ⟨rfl, rfl⟩), h.2⟩

set_option maxRecDepth 100000 in
/-- C5: the code does not surface an explicit absent result when no candidate
halts within budget.  `main`'s leaderboard fold over a machine list whose only
entry never halts silently retains the `Stats::default` dummy holders, and the
free-standing selectors panic (modelled `none`) on an empty collection instead
of returning a designated absent value. -/
theorem C5_empty_leaderboard_defaults :
    main_selection [loop_table] = some ⟨0, Stats.default, 0, Stats.default⟩ ∧
    highest_score [] = none ∧ highest_action [] = none := by
  refine ⟨?_, by decide, by decide⟩
  simp only [main_selection, busy_beaver_eq_eval]
  decide

set_option maxRecDepth 100000 in
/-- C7: `Machines::generate 1 2` contains the table
`[write=1,dir=Right,next=Halt; write=0,dir=Right,next=Card(0)]`, and running
it from the all-zero tape halts with action 1 and score 1. -/
theorem C7_concrete_scenario :
    Machines.generate 1 2 = some ((Machines.generate 1 2).getD ⟨[]⟩) ∧
    bb1_table ∈ ((Machines.generate 1 2).getD ⟨[]⟩).machines ∧
    (busy_beaver bb1_table).map (Option.map Stats.action) = some (some 1) ∧
    (busy_beaver bb1_table).map (Option.map Stats.score) = some (some 1) := by
  rw [Machines.generate_eq_eval 1 2 (by omega) (by omega), busy_beaver_eq_eval]
  decide

/-- C10: the head offset recorded by `Stats::update` is computed by the
`usize` subtraction `tw.head - tape.0.len()/2`; whenever the head is strictly
left of the tape midpoint this subtraction underflows, so under checked
semantics the update has no defined value and under truncated natural-number
semantics the value differs from the intended signed offset.  Such calls occur
in ordinary runs: the second snapshot of the `left_halt_table` run is taken
with head 0 on the three-cell tape `[0, 1, 0]`. -/
theorem C10_head_position_underflow :
    (∀ head len : Nat, head < len / 2 →
      head_position_checked head len = none ∧
      ((head - len / 2 : Nat) : Int) ≠ (head : Int) - ((len / 2 : Nat) : Int)) ∧
    (busy_beaver left_halt_table = some (some left_halt_stats) ∧
      left_halt_stats.tapes.map Tape.cells = [[0], [0, 1, 0]] ∧
      left_halt_stats.head_positions = [0, -1] ∧
      (0 : Nat) < ([0, 1, 0] : List Nat).length / 2) := by
  constructor
  · intro head len h
    constructor
    · simp [head_position_checked]; omega
    · have h0 : (head - len / 2 : Nat) = 0 := by omega
      rw [h0]
      intro hc
      omega
  · exact ⟨by rw [busy_beaver_eq_eval]; decide, by decide, by decide, by decide⟩


/-- Witness for the universally quantified part of C10 at `head = 0`,
`len = 3` (the concrete call exhibited by the `left_halt_table` run). -/
theorem C10_head_position_underflow_witness :
    (0 : Nat) < 3 / 2 ∧ head_position_checked 0 3 = none ∧
    ((0 - 3 / 2 : Nat) : Int) ≠ (0 : Int) - ((3 / 2 : Nat) : Int) :=
  ⟨by decide, (C10_head_position_underflow.1 0 3 (by decide)).1,
    (C10_head_position_underflow.1 0 3 (by decide)).2⟩

/-! Theory of the combination generator. -/

/-- All ordered length-`d` sequences over `input`, outermost position first,
depth-first and index-ascending (the canonical enumeration the generator is
compared against). -/
def tuples {T : Type} (input : List T) : Nat → List (List T)
  | 0 => [[]]
  | d + 1 => (input.map fun x => (tuples input d).map fun t => x :: t).flatten

/-- The length-`L` tuple at result index `i`: the mixed-radix (base `P`)
digits of `i`, most significant first, mapped through the pool. -/
def nth_tuple {T : Type} (input : List T) : Nat → Nat → Option (List T)
  | 0, i => if i = 0 then some [] else none
  | d + 1, i =>
    (input[i / input.length ^ d]?).bind fun x =>
      (nth_tuple input d (i % input.length ^ d)).map fun t => x :: t

theorem flatten_map_singleton {T U : Type} (l : List T) (f : T → U) :
    (l.map fun x => [f x]).flatten = l.map f := by
  induction l with
  | nil => rfl
  | cons x rest ih => simp_all

theorem gc_eval_eq_tuples {T : Type} (input : List T) :
    ∀ (fuel : Nat) (holder : List T),
      gc_eval input fuel holder = (tuples input (fuel + 1)).map fun t => holder ++ t := by
  intro fuel
  induction fuel with
  | zero =>
    intro holder
    show input.map (fun x => holder ++ [x]) = _
    rw [show tuples input 1 = (input.map fun x => (tuples input 0).map fun t => x :: t).flatten from rfl]
    show _ = ((input.map fun x => [[x]]).flatten).map fun t => holder ++ t
    rw [flatten_map_singleton input (fun x => [x])]
    rw [List.map_map]
    rfl
  | succ f ih =>
    intro holder
    show (input.map fun x => gc_eval input f (holder ++ [x])).flatten = _
    rw [show tuples input (f + 1 + 1) = (input.map fun x => (tuples input (f + 1)).map fun t => x :: t).flatten from rfl]
    rw [List.map_flatten, List.map_map]
    congr 1
    apply List.map_congr_left
    intro x _
    simp only [Function.comp_apply]
    rw [ih (holder ++ [x]), List.map_map]
    apply List.map_congr_left
    intro t _
    simp

/-- On its actual call pattern (`rem = input`, `r = 0`, empty holder) the
generator enumerates exactly the canonical depth-first tuple list. -/
theorem generate_combinations_eq_tuples {T : Type} (input : List T) (L : Nat)
    (hL : 1 ≤ L) :
    generate_combinations input L input 0 [] = tuples input L := by
  rw [generate_combinations_eq_gc_eval input L (L - 1) 0 [] (by omega),
    gc_eval_eq_tuples input (L - 1) []]
  have : L - 1 + 1 = L := by omega
  rw [this]
  simp

theorem length_tuples {T : Type} (input : List T) :
    ∀ d : Nat, (tuples input d).length = input.length ^ d := by
  intro d
  induction d with
  | zero => rfl
  | succ d ih =>
    show ((input.map fun x => (tuples input d).map fun t => x :: t).flatten).length = _
    rw [List.length_flatten, List.map_map]
    have h1 : input.map (List.length ∘ fun x => (tuples input d).map fun t => x :: t) =
        input.map fun _ => input.length ^ d := by
      apply List.map_congr_left
      intro x _
      simp [ih]
    rw [h1, List.map_const', List.sum_replicate, smul_eq_mul, pow_succ,
      Nat.mul_comm]

theorem mem_tuples {T : Type} (input : List T) :
    ∀ (d : Nat) (t : List T), t ∈ tuples input d →
      t.length = d ∧ ∀ x ∈ t, x ∈ input := by
  intro d
  induction d with
  | zero =>
    intro t ht
    simp only [tuples, List.mem_singleton] at ht
    subst ht
    simp
  | succ d ih =>
    intro t ht
    simp only [tuples, List.mem_flatten, List.mem_map] at ht
    obtain ⟨b, ⟨x, hx, rfl⟩, hb⟩ := ht
    simp only [List.mem_map] at hb
    obtain ⟨t0, ht0, rfl⟩ := hb
    obtain ⟨hlen, hmem⟩ := ih t0 ht0
    refine ⟨by simp [hlen], ?_⟩
    intro y hy
    rcases List.mem_cons.mp hy with rfl | hy
    · exact hx
    · exact hmem y hy

theorem tuples_complete {T : Type} (input : List T) :
    ∀ (d : Nat) (t : List T), t.length = d → (∀ x ∈ t, x ∈ input) →
      t ∈ tuples input d := by
  intro d
  induction d with
  | zero =>
    intro t hlen _
    rw [List.length_eq_zero] at hlen
    subst hlen
    simp [tuples]
  | succ d ih =>
    intro t hlen hmem
    cases t with
    | nil => simp at hlen
    | cons x rest =>
      simp only [tuples, List.mem_flatten, List.mem_map]
      refine ⟨(tuples input d).map fun t => x :: t, ⟨x, hmem x (by simp), rfl⟩, ?_⟩
      simp only [List.mem_map]
      have hlen0 : rest.length = d := by simpa using hlen
      have hrest : rest ∈ tuples input d := by
        apply ih rest hlen0
        intro y hy
        exact hmem y (List.mem_cons_of_mem x hy)
      exact ⟨rest, hrest, rfl⟩

theorem nodup_tuples {T : Type} (input : List T) (hnd : input.Nodup) :
    ∀ d : Nat, (tuples input d).Nodup := by
  intro d
  induction d with
  | zero => simp [tuples]
  | succ d ih =>
    show ((input.map fun x => (tuples input d).map fun t => x :: t).flatten).Nodup
    rw [List.nodup_flatten]
    constructor
    · intro b hb
      simp only [List.mem_map] at hb
      obtain ⟨x, _, rfl⟩ := hb
      exact ih.map fun t1 t2 h => by simpa using h
    · rw [List.pairwise_map]
      refine hnd.imp ?_
      intro a b hab
      intro t hta htb
      simp only [List.mem_map] at hta htb
      obtain ⟨t1, _, rfl⟩ := hta
      obtain ⟨t2, _, h2⟩ := htb
      have h3 : b = a ∧ t2 = t1 := by
        simpa [List.cons.injEq] using h2
      exact hab h3.1.symm

theorem getElem?_flatten_const {T : Type} (n : Nat) (hn : 0 < n) :
    ∀ (L : List (List T)), (∀ b ∈ L, b.length = n) →
      ∀ i : Nat, L.flatten[i]? = (L[i / n]?).bind fun b => b[i % n]? := by
  intro L
  induction L with
  | nil => intro _ i; simp
  | cons b rest ih =>
    intro hlen i
    have hb : b.length = n := hlen b (by simp)
    show (b ++ rest.flatten)[i]? = _
    rcases Nat.lt_or_ge i n with hin | hge
    · rw [List.getElem?_append_left (by omega)]
      rw [Nat.div_eq_of_lt hin, Nat.mod_eq_of_lt hin, List.getElem?_cons_zero]
      rfl
    · rw [List.getElem?_append_right (by omega), hb]
      obtain ⟨j, rfl⟩ : ∃ j, i = j + n := ⟨i - n, by omega⟩
      rw [Nat.add_sub_cancel, Nat.add_div_right j hn, Nat.add_mod_right j n]
      rw [ih (fun b hb => hlen b (by simp [hb])) j, List.getElem?_cons_succ]

theorem getElem?_tuples {T : Type} (input : List T) :
    ∀ (d i : Nat), (tuples input d)[i]? = nth_tuple input d i := by
  intro d
  induction d with
  | zero =>
    intro i
    cases i with
    | zero => rfl
    | succ j => simp [tuples, nth_tuple]
  | succ d ih =>
    intro i
    cases input with
    | nil =>
      have hemp : tuples ([] : List T) (d + 1) = [] := by simp [tuples]
      simp [hemp, nth_tuple]
    | cons a as =>
      set inp := a :: as with hinp
      have hpow : 0 < inp.length ^ d := Nat.pow_pos (by simp [hinp])
      show ((inp.map fun x => (tuples inp d).map fun t => x :: t).flatten)[i]? = _
      rw [getElem?_flatten_const (inp.length ^ d) hpow _ ?hlens i]
      case hlens =>
        intro b hb
        simp only [List.mem_map] at hb
        obtain ⟨x, _, rfl⟩ := hb
        simp [length_tuples]
      rw [List.getElem?_map]
      show (inp[i / inp.length ^ d]?.map fun x => (tuples inp d).map fun t => x :: t).bind
          (fun b => b[i % inp.length ^ d]?) = _
      rw [nth_tuple]
      cases inp[i / inp.length ^ d]? with
      | none => rfl
      | some x =>
        show ((tuples inp d).map fun t => x :: t)[i % inp.length ^ d]? = _
        rw [List.getElem?_map, ih (i % inp.length ^ d)]
        rfl

/-- C6 counterexample: for the pool `[0, 0]` (size 2) and length 1 the
generator returns `[[0], [0]]`: the two result entries are duplicates, so the
claim's unconditional no-duplicates property fails for pools that themselves
contain duplicate elements. -/
theorem C6_counterexample :
    generate_combinations [0, 0] 1 [0, 0] 0 [] = [[0], [0]] ∧
    ¬ ([[0], [0]] : List (List Nat)).Nodup := by
  constructor
  · rw [generate_combinations_eq_gc_eval [0, 0] 1 0 0 [] rfl]
    decide
  · decide

/-- C6 (amended): for every pool of size `P` and target length `L ≥ 1`,
`generate_combinations` produces exactly `P ^ L` ordered sequences, each of
length `L` with every element drawn from the pool, every such sequence
appearing; there are no duplicates across result entries provided the pool
itself has no duplicate elements; and the result is the same deterministic
depth-first, index-ascending enumeration: entry `i` is the base-`P`
representation of `i` (most significant digit first) mapped through the
pool. -/
theorem C6_generate_combinations {T : Type} (pool : List T) (L : Nat)
    (hL : 1 ≤ L) :
    (generate_combinations pool L pool 0 []).length = pool.length ^ L ∧
    (∀ t ∈ generate_combinations pool L pool 0 [],
      t.length = L ∧ ∀ x ∈ t, x ∈ pool) ∧
    (∀ t : List T, t.length = L → (∀ x ∈ t, x ∈ pool) →
      t ∈ generate_combinations pool L pool 0 []) ∧
    (pool.Nodup → (generate_combinations pool L pool 0 []).Nodup) ∧
    (∀ i : Nat, (generate_combinations pool L pool 0 [])[i]? = nth_tuple pool L i) := by
  rw [generate_combinations_eq_tuples pool L hL]
  exact ⟨length_tuples pool L, mem_tuples pool L, tuples_complete pool L,
    fun h => nodup_tuples pool h L, getElem?_tuples pool L⟩

/-- Witness for the amended C6: pool `[10, 20]`, length 2. -/
theorem C6_generate_combinations_witness :
    (generate_combinations [10, 20] 2 [10, 20] 0 []).length = 2 ^ 2 ∧
    ((10 : Nat) :: [20]) ∈ generate_combinations [10, 20] 2 [10, 20] 0 [] ∧
    ((generate_combinations [10, 20] 2 [10, 20] 0 [])[1]? = nth_tuple [10, 20] 2 1) :=
  have h := C6_generate_combinations [10, 20] 2 (by omega)
  ⟨h.1, h.2.2.1 (10 :: [20]) (by decide) (by decide), h.2.2.2.2 1⟩

/-! Theory of the leaderboard selectors. -/

/-- The strict-improvement fold shared by `highest_score` and
`highest_action`, abstracted over the compared measure. -/
def best_fold {α : Type} (f : α → Nat) (l : List α) (leader : α) : α :=
  l.foldl (fun leader s => if f s > f leader then s else leader) leader

theorem best_fold_cons {α : Type} (f : α → Nat) (s : α) (rest : List α)
    (leader : α) :
    best_fold f (s :: rest) leader =
      best_fold f rest (if f s > f leader then s else leader) := rfl

/-- The fold returns the first entry attaining the maximum measure: it
dominates the initial leader and every list entry, and unless it is the
initial leader it occurs in the list at an index before which every entry has
a strictly smaller measure. -/
theorem best_fold_spec {α : Type} (f : α → Nat) :
    ∀ (l : List α) (leader : α),
      (∀ t ∈ l, f t ≤ f (best_fold f l leader)) ∧
      f leader ≤ f (best_fold f l leader) ∧
      (best_fold f l leader = leader ∨
        ∃ i : Nat, l[i]? = some (best_fold f l leader) ∧
          f leader < f (best_fold f l leader) ∧
          ∀ j : Nat, j < i → ∀ t : α, l[j]? = some t →
            f t < f (best_fold f l leader)) := by
  intro l
  induction l with
  | nil => intro leader; exact ⟨by simp, le_refl _, Or.inl rfl⟩
  | cons s rest ih =>
    intro leader
    rw [best_fold_cons]
    by_cases hs : f s > f leader
    · rw [if_pos hs]
      obtain ⟨ha, hb, hc⟩ := ih s
      refine ⟨?_, by omega, ?_⟩
      · intro t ht
        rcases List.mem_cons.mp ht with rfl | ht
        · exact hb
        · exact ha t ht
      · right
        rcases hc with heq | ⟨i, hi, hlt, hfirst⟩
        · refine ⟨0, ?_, ?_, ?_⟩
          · rw [heq]; exact List.getElem?_cons_zero
          · rw [heq]; omega
          · intro j hj t ht; omega
        · refine ⟨i + 1, by rw [List.getElem?_cons_succ]; exact hi, by omega, ?_⟩
          intro j hj t ht
          cases j with
          | zero =>
            rw [List.getElem?_cons_zero] at ht
            obtain rfl := Option.some.inj ht
            omega
          | succ j0 =>
            rw [List.getElem?_cons_succ] at ht
            exact hfirst j0 (by omega) t ht
    · rw [if_neg hs]
      obtain ⟨ha, hb, hc⟩ := ih leader
      refine ⟨?_, hb, ?_⟩
      · intro t ht
        rcases List.mem_cons.mp ht with rfl | ht
        · omega
        · exact ha t ht
      · rcases hc with heq | ⟨i, hi, hlt, hfirst⟩
        · exact Or.inl heq
        · right
          refine ⟨i + 1, by rw [List.getElem?_cons_succ]; exact hi, hlt, ?_⟩
          intro j hj t ht
          cases j with
          | zero =>
            rw [List.getElem?_cons_zero] at ht
            obtain rfl := Option.some.inj ht
            omega
          | succ j0 =>
            rw [List.getElem?_cons_succ] at ht
            exact hfirst j0 (by omega) t ht

theorem highest_score_eq (first : Stats) (rest : List Stats) :
    highest_score (first :: rest) =
      some (best_fold Stats.score (first :: rest) first) := by
  simp [highest_score, best_fold]

theorem highest_action_eq (first : Stats) (rest : List Stats) :
    highest_action (first :: rest) =
      some (best_fold Stats.action (first :: rest) first) := by
  simp [highest_action, best_fold]

/-- C9: on a non-empty collection, `highest_score` returns the entry whose
score dominates every entry (ties broken by first-encountered order: every
entry before the returned one is strictly smaller), and `highest_action` does
the same for the action count, independently. -/
theorem C9_best_selection (l : List Stats) (hne : l ≠ []) :
    (∃ s : Stats, highest_score l = some s ∧ (∀ t ∈ l, t.score ≤ s.score) ∧
      ∃ i : Nat, l[i]? = some s ∧
        ∀ j : Nat, j < i → ∀ t : Stats, l[j]? = some t → t.score < s.score) ∧
    (∃ s : Stats, highest_action l = some s ∧ (∀ t ∈ l, t.action ≤ s.action) ∧
      ∃ i : Nat, l[i]? = some s ∧
        ∀ j : Nat, j < i → ∀ t : Stats, l[j]? = some t → t.action < s.action) := by
  cases l with
  | nil => exact absurd rfl hne
  | cons first rest =>
    constructor
    · rw [highest_score_eq]
      obtain ⟨ha, _, hc⟩ := best_fold_spec Stats.score (first :: rest) first
      refine ⟨best_fold Stats.score (first :: rest) first, rfl, ha, ?_⟩
      rcases hc with heq | ⟨i, hi, _, hfirst⟩
      · exact ⟨0, by rw [heq]; exact List.getElem?_cons_zero,
          fun j hj t ht => absurd hj (Nat.not_lt_zero j)⟩
      · exact ⟨i, hi, hfirst⟩
    · rw [highest_action_eq]
      obtain ⟨ha, _, hc⟩ := best_fold_spec Stats.action (first :: rest) first
      refine ⟨best_fold Stats.action (first :: rest) first, rfl, ha, ?_⟩
      rcases hc with heq | ⟨i, hi, _, hfirst⟩
      · exact ⟨0, by rw [heq]; exact List.getElem?_cons_zero,
          fun j hj t ht => absurd hj (Nat.not_lt_zero j)⟩
      · exact ⟨i, hi, hfirst⟩

/-- A bare statistics record carrying only a score and an action count. -/
def stats_example (sc ac : Nat) : Stats :=
  { cards := Cards.mk [], score := sc, action := ac, tapes := [],
    head_positions := [] }

/-- Witness for C9 on the spec's example: three completed runs with scores
`{2, 5, 3}` and actions `{10, 4, 20}`: best-score is the score-5 run and
best-action is the action-20 run, independently. -/
theorem C9_best_selection_witness :
    ([stats_example 2 10, stats_example 5 4, stats_example 3 20] : List Stats) ≠ [] ∧
    highest_score [stats_example 2 10, stats_example 5 4, stats_example 3 20] =
      some (stats_example 5 4) ∧
    highest_action [stats_example 2 10, stats_example 5 4, stats_example 3 20] =
      some (stats_example 3 20) ∧
    (∃ s : Stats,
      highest_score [stats_example 2 10, stats_example 5 4, stats_example 3 20] =
        some s ∧
      (∀ t ∈ [stats_example 2 10, stats_example 5 4, stats_example 3 20],
        t.score ≤ s.score) ∧
      ∃ i : Nat,
        [stats_example 2 10, stats_example 5 4, stats_example 3 20][i]? = some s ∧
        ∀ j : Nat, j < i →
          ∀ t : Stats,
            [stats_example 2 10, stats_example 5 4, stats_example 3 20][j]? = some t →
            t.score < s.score) :=
  ⟨by decide, by decide, by decide,
    (C9_best_selection [stats_example 2 10, stats_example 5 4, stats_example 3 20]
      (by decide)).1⟩

/-! Well-formedness of transition tables and the run invariant. -/

/-- Decidable well-formedness of a transition table for symbol count `K`
(the data-model invariants of spec section 3): at least one card, exactly
`K` instructions per card, every written symbol in `[0, K)` and every
referenced card index in range. -/
def Cards.wf (cs : Cards) (K : Nat) : Bool :=
  decide (0 < K) && decide (cs.cards ≠ []) &&
  cs.cards.all fun c =>
    decide (c.insts.length = K) &&
    c.insts.all fun inst =>
      decide (inst.write < K) &&
      (match inst.state with
       | State.Card i => decide (i < cs.cards.length)
       | State.Halt => true)

theorem wf_spec (cs : Cards) (K : Nat) (h : Cards.wf cs K = true) :
    0 < K ∧ cs.cards ≠ [] ∧
    ∀ c ∈ cs.cards, c.insts.length = K ∧
      ∀ inst ∈ c.insts, inst.write < K ∧
        ∀ i : Nat, inst.state = State.Card i → i < cs.cards.length := by
  simp only [Cards.wf, Bool.and_eq_true, decide_eq_true_eq, List.all_eq_true] at h
  obtain ⟨⟨hK, hne⟩, hall⟩ := h
  refine ⟨hK, hne, ?_⟩
  intro c hc
  obtain ⟨hlen, hinsts⟩ := hall c hc
  refine ⟨hlen, ?_⟩
  intro inst hin
  obtain ⟨hw, hst⟩ := hinsts inst hin
  refine ⟨hw, ?_⟩
  intro i hi
  rw [hi] at hst
  simpa using hst

/-- Invariant maintained by the `busy_beaver` loop at round `rounds`: head in
bounds, tape length bounded (the tape gains at most two cells per step),
every tape cell a valid symbol, the current card one of the table's cards,
and every cell of every recorded snapshot a valid symbol. -/
def StateInv (cards : Cards) (K rounds : Nat) (c : BBConfig) : Prop :=
  c.tw.head < c.tape.cells.length ∧
  c.tape.cells.length ≤ 2 * rounds + 3 ∧
  (∀ x ∈ c.tape.cells, x < K) ∧
  c.cur ∈ cards.cards ∧
  (∀ t ∈ c.stats.tapes, ∀ x ∈ t.cells, x < K)

/-- One loop iteration from a well-formed table and an invariant
configuration either continues with the invariant re-established or halts
with well-formed snapshots; it never panics. -/
theorem bbStep_preserves (cards : Cards) (K rounds : Nat) (c : BBConfig)
    (hwf : Cards.wf cards K = true) (hinv : StateInv cards K rounds c)
    (hr : rounds ≤ 100) :
    (∃ c', bbStep cards c = StepOutcome.cont c' ∧
      StateInv cards K (rounds + 1) c') ∨
    (∃ s, bbStep cards c = StepOutcome.halted s ∧
      ∀ t ∈ s.tapes, ∀ x ∈ t.cells, x < K) := by
  obtain ⟨hK, hne, hwfc⟩ := wf_spec cards K hwf
  obtain ⟨hhead, hlen, hcells, hcur, htapes⟩ := hinv
  obtain ⟨v, hv⟩ : ∃ v, c.tape.cells[c.tw.head]? = some v :=
    ⟨_, List.getElem?_eq_getElem hhead⟩
  have hvK : v < K := hcells v (List.getElem?_mem hv)
  obtain ⟨hclen, hrow⟩ := hwfc c.cur hcur
  have hvlen : v < c.cur.insts.length := by omega
  obtain ⟨inst, hinst⟩ : ∃ inst, c.cur.insts[v]? = some inst :=
    ⟨_, List.getElem?_eq_getElem hvlen⟩
  obtain ⟨hwK, hstK⟩ := hrow inst (List.getElem?_mem hinst)
  have hget : c.cur.get_instruction c.tw c.tape = some inst := by
    simp [Card.get_instruction, Typewriter.read, hv, hinst]
  have hwrite : c.tw.write inst.write c.tape =
      some ⟨c.tape.cells.set c.tw.head inst.write⟩ := by
    simp [Typewriter.write, hhead]
  set tape1 : Tape := ⟨c.tape.cells.set c.tw.head inst.write⟩ with htape1
  have hlen1 : tape1.cells.length = c.tape.cells.length := by
    simp [htape1, List.length_set]
  have hcells1 : ∀ x ∈ tape1.cells, x < K := by
    intro x hx
    rcases List.mem_or_eq_of_mem_set hx with hmem | rfl
    · exact hcells x hmem
    · exact hwK
  have hUS : tape1.cells.length + 1 < USIZE := by
    have h204 : (204 : Nat) < USIZE := by norm_num [USIZE]
    omega
  have hmove := move_head_ok c.tw inst.direction tape1 (by omega) hUS
  set mt := Typewriter.move_head c.tw inst.direction tape1 with hmt
  have hcells2 : ∀ x ∈ mt.2.cells, x < K := by
    rcases hmove.2 with h2 | h2
    · rw [h2]; exact hcells1
    · rw [h2]
      intro x hx
      rcases List.mem_cons.mp hx with rfl | hx
      · exact hK
      · rcases List.mem_append.mp hx with hx | hx
        · exact hcells1 x hx
        · rcases List.mem_singleton.mp hx with rfl
          exact hK
  have hlen2 : mt.2.cells.length ≤ tape1.cells.length + 2 := by
    rcases hmove.2 with h2 | h2 <;> simp [h2]
  have htapes2 : ∀ t ∈ (c.stats.update mt.2 mt.1).tapes,
      ∀ x ∈ t.cells, x < K := by
    intro t ht
    simp only [Stats.update, List.mem_append, List.mem_singleton] at ht
    rcases ht with ht | rfl
    · exact htapes t ht
    · exact hcells2
  cases hstate : inst.state with
  | Halt =>
    right
    refine ⟨c.stats.update mt.2 mt.1, ?_, htapes2⟩
    simp only [bbStep, hget, hwrite, ← hmt, hstate]
  | Card i =>
    left
    have hi : i < cards.cards.length := hstK i hstate
    obtain ⟨card2, hcard2⟩ : ∃ card2, cards.cards[i]? = some card2 :=
      ⟨_, List.getElem?_eq_getElem hi⟩
    refine ⟨⟨mt.2, mt.1, c.stats.update mt.2 mt.1, card2⟩, ?_, ?_⟩
    · simp only [bbStep, hget, hwrite, ← hmt, hstate, Cards.get_card, hcard2]
    · exact ⟨hmove.1, (show mt.2.cells.length ≤ 2 * (rounds + 1) + 3 by omega),
        hcells2, List.getElem?_mem hcard2, htapes2⟩

/-- Unfolding equations for the `busy_beaver` loop. -/
theorem bbLoop_cont (cards : Cards) (c c' : BBConfig) (rounds : Nat)
    (h : bbStep cards c = StepOutcome.cont c') :
    bbLoop cards c rounds =
      if rounds + 1 > 100 then some none else bbLoop cards c' (rounds + 1) := by
  rw [bbLoop, h]

theorem bbLoop_halted (cards : Cards) (c : BBConfig) (s : Stats) (rounds : Nat)
    (h : bbStep cards c = StepOutcome.halted s) :
    bbLoop cards c rounds = some (some s) := by
  rw [bbLoop, h]

theorem bbLoop_panicked (cards : Cards) (c : BBConfig) (rounds : Nat)
    (h : bbStep cards c = StepOutcome.panicked) :
    bbLoop cards c rounds = none := by
  rw [bbLoop, h]

/-- Unfolding equations for the iteration counter. -/
theorem bb_iterations_cont (cards : Cards) (c c' : BBConfig) (rounds : Nat)
    (h : bbStep cards c = StepOutcome.cont c') :
    bb_iterations cards c rounds =
      if rounds + 1 > 100 then 1 else 1 + bb_iterations cards c' (rounds + 1) := by
  rw [bb_iterations, h]

theorem bb_iterations_halted (cards : Cards) (c : BBConfig) (s : Stats)
    (rounds : Nat) (h : bbStep cards c = StepOutcome.halted s) :
    bb_iterations cards c rounds = 1 := by
  rw [bb_iterations, h]

/-- Under the invariant, the loop never panics and every halted run's
snapshots contain only valid symbols. -/
theorem bbLoop_safe (cards : Cards) (K : Nat) (hwf : Cards.wf cards K = true) :
    ∀ (n rounds : Nat) (c : BBConfig), 100 - rounds ≤ n → rounds ≤ 100 →
      StateInv cards K rounds c →
      bbLoop cards c rounds ≠ none ∧
      (∀ s, bbLoop cards c rounds = some (some s) →
        ∀ t ∈ s.tapes, ∀ x ∈ t.cells, x < K) := by
  intro n
  induction n with
  | zero =>
    intro rounds c hn hr hinv
    rcases bbStep_preserves cards K rounds c hwf hinv hr with
      ⟨c', hc', _⟩ | ⟨s, hs, hts⟩
    · rw [bbLoop_cont cards c c' rounds hc', if_pos (by omega : rounds + 1 > 100)]
      exact ⟨by simp, by simp⟩
    · rw [bbLoop_halted cards c s rounds hs]
      refine ⟨by simp, ?_⟩
      intro s2 hs2
      obtain rfl : s = s2 := by simpa using hs2
      exact hts
  | succ n ih =>
    intro rounds c hn hr hinv
    rcases bbStep_preserves cards K rounds c hwf hinv hr with
      ⟨c', hc', hinv'⟩ | ⟨s, hs, hts⟩
    · by_cases hb : rounds + 1 > 100
      · rw [bbLoop_cont cards c c' rounds hc', if_pos hb]
        exact ⟨by simp, by simp⟩
      · rw [bbLoop_cont cards c c' rounds hc', if_neg hb]
        exact ih (rounds + 1) c' (by omega) (by omega) hinv'
    · rw [bbLoop_halted cards c s rounds hs]
      refine ⟨by simp, ?_⟩
      intro s2 hs2
      obtain rfl : s = s2 := by simpa using hs2
      exact hts

/-- The initial configuration of a well-formed table exists and satisfies
the invariant at round 0. -/
theorem bb_init_wf (cards : Cards) (K : Nat) (hwf : Cards.wf cards K = true) :
    ∃ c0, bb_init cards = some c0 ∧ StateInv cards K 0 c0 := by
  obtain ⟨hK, hne, _⟩ := wf_spec cards K hwf
  obtain ⟨c00, hc0⟩ : ∃ c00, cards.cards[0]? = some c00 := by
    cases hcs : cards.cards with
    | nil => exact absurd hcs hne
    | cons a as => exact ⟨a, List.getElem?_cons_zero⟩
  refine ⟨⟨⟨[0]⟩, ⟨0⟩, (Stats.init cards).update ⟨[0]⟩ ⟨0⟩, c00⟩, ?_, ?_⟩
  · simp [bb_init, Cards.get_card, hc0]
  · refine ⟨by simp, by simp, ?_, List.getElem?_mem hc0, ?_⟩
    · intro x hx
      rcases List.mem_singleton.mp hx with rfl
      exact hK
    · intro t ht x hx
      simp only [Stats.update, Stats.init, List.nil_append,
        List.mem_singleton] at ht
      subst ht
      rcases List.mem_singleton.mp hx with rfl
      exact hK

/-- A well-formed table never panics, and all snapshots of a halted run hold
valid symbols only. -/
theorem busy_beaver_safe (cards : Cards) (K : Nat)
    (hwf : Cards.wf cards K = true) :
    busy_beaver cards ≠ none ∧
    (∀ s, busy_beaver cards = some (some s) →
      ∀ t ∈ s.tapes, ∀ x ∈ t.cells, x < K) := by
  obtain ⟨c0, hinit, hinv⟩ := bb_init_wf cards K hwf
  rw [busy_beaver, hinit]
  exact bbLoop_safe cards K hwf 100 0 c0 (by omega) (by omega) hinv

/-- An abandoned loop performs exactly `101 - rounds` further iterations. -/
theorem bbLoop_abandon_iterations (cards : Cards) :
    ∀ (n rounds : Nat) (c : BBConfig), 100 - rounds ≤ n → rounds ≤ 100 →
      bbLoop cards c rounds = some none →
      bb_iterations cards c rounds = 101 - rounds := by
  intro n
  induction n with
  | zero =>
    intro rounds c hn hr habd
    cases hstep : bbStep cards c with
    | panicked => rw [bbLoop_panicked cards c rounds hstep] at habd; simp at habd
    | halted s => rw [bbLoop_halted cards c s rounds hstep] at habd; simp at habd
    | cont c' =>
      rw [bb_iterations_cont cards c c' rounds hstep,
        if_pos (by omega : rounds + 1 > 100)]
      omega
  | succ n ih =>
    intro rounds c hn hr habd
    cases hstep : bbStep cards c with
    | panicked => rw [bbLoop_panicked cards c rounds hstep] at habd; simp at habd
    | halted s => rw [bbLoop_halted cards c s rounds hstep] at habd; simp at habd
    | cont c' =>
      rw [bb_iterations_cont cards c c' rounds hstep]
      by_cases hb : rounds + 1 > 100
      · rw [if_pos hb]
        omega
      · rw [bbLoop_cont cards c c' rounds hstep, if_neg hb] at habd
        rw [if_neg hb, ih (rounds + 1) c' (by omega) (by omega) habd]
        omega

/-- A halting step returns statistics produced by `Stats::update`. -/
theorem bbStep_halted_shape (cards : Cards) (c : BBConfig) (s : Stats)
    (h : bbStep cards c = StepOutcome.halted s) :
    ∃ (st : Stats) (tape : Tape) (tw : Typewriter), s = st.update tape tw := by
  unfold bbStep at h
  split at h
  · exact absurd h (by simp)
  · split at h
    · exact absurd h (by simp)
    · split at h
      · injection h with h2
        exact ⟨c.stats, _, _, h2.symm⟩
      · split at h
        · exact absurd h (by simp)
        · exact absurd h (by simp)

/-- Every statistics value returned by a halting run was produced by the
final `Stats::update` call of the loop. -/
theorem bbLoop_halted_shape (cards : Cards) :
    ∀ (n rounds : Nat) (c : BBConfig) (s : Stats), 100 - rounds ≤ n →
      bbLoop cards c rounds = some (some s) →
      ∃ (st : Stats) (tape : Tape) (tw : Typewriter),
        s = st.update tape tw := by
  intro n
  induction n with
  | zero =>
    intro rounds c s hn hret
    cases hstep : bbStep cards c with
    | panicked => rw [bbLoop_panicked cards c rounds hstep] at hret; simp at hret
    | cont c' =>
      rw [bbLoop_cont cards c c' rounds hstep,
        if_pos (by omega : rounds + 1 > 100)] at hret
      simp at hret
    | halted s2 =>
      rw [bbLoop_halted cards c s2 rounds hstep] at hret
      obtain rfl : s2 = s := by simpa using hret
      exact bbStep_halted_shape cards c s2 hstep
  | succ n ih =>
    intro rounds c s hn hret
    cases hstep : bbStep cards c with
    | panicked => rw [bbLoop_panicked cards c rounds hstep] at hret; simp at hret
    | cont c' =>
      rw [bbLoop_cont cards c c' rounds hstep] at hret
      by_cases hb : rounds + 1 > 100
      · rw [if_pos hb] at hret; simp at hret
      · rw [if_neg hb] at hret
        exact ih (rounds + 1) c' s (by omega) hret
    | halted s2 =>
      rw [bbLoop_halted cards c s2 rounds hstep] at hret
      obtain rfl : s2 = s := by simpa using hret
      exact bbStep_halted_shape cards c s2 hstep

theorem update_shape (st : Stats) (tape : Tape) (tw : Typewriter) :
    (st.update tape tw).tapes ≠ [] ∧
    (st.update tape tw).action + 1 = (st.update tape tw).tapes.length ∧
    (st.update tape tw).tapes.getLast? = some tape ∧
    (st.update tape tw).score = (tape.cells.filter fun x => x == 1).length := by
  refine ⟨by simp [Stats.update], ?_, ?_, by simp [Stats.update]⟩
  · simp only [Stats.update]
    rw [List.length_append]
    simp
  · simp only [Stats.update]
    exact List.getLast?_concat _

theorem busy_beaver_init_some (cards : Cards) (c0 : BBConfig)
    (h : bb_init cards = some c0) :
    busy_beaver cards = bbLoop cards c0 0 := by
  rw [busy_beaver, h]

theorem busy_beaver_init_none (cards : Cards) (h : bb_init cards = none) :
    busy_beaver cards = none := by
  rw [busy_beaver, h]

/-! Well-formedness of every generated table. -/

theorem generate_combinations_nil {T : Type} (input : List T)
    (max_depth r : Nat) (holder : List T) :
    generate_combinations input max_depth [] r holder = [] := by
  rw [generate_combinations]

theorem generate_instructions_zero (N : Nat) :
    Machines.generate_instructions N 0 = [] := by
  simp [Machines.generate_instructions]

/-- Every instruction of the generated alphabet writes a symbol below `K`
and references a card index below `N`. -/
theorem generate_instructions_mem (N K : Nat) (inst : Instructions)
    (h : inst ∈ Machines.generate_instructions N K) :
    inst.write < K ∧ ∀ i : Nat, inst.state = State.Card i → i < N := by
  simp only [Machines.generate_instructions, List.mem_flatten, List.mem_map] at h
  obtain ⟨b, ⟨s, hs, rfl⟩, hb⟩ := h
  simp only [List.mem_flatten, List.mem_map] at hb
  obtain ⟨b2, ⟨d, _, rfl⟩, hb2⟩ := hb
  simp only [List.mem_map] at hb2
  obtain ⟨sy, hsy, rfl⟩ := hb2
  simp only [List.mem_map, List.mem_range] at hsy
  obtain ⟨i0, hi0, rfl⟩ := hsy
  constructor
  · show i0 % 256 < K
    calc i0 % 256 ≤ i0 := Nat.mod_le i0 256
    _ < K := hi0
  · intro i hi
    replace hi : s = State.Card i := hi
    rcases List.mem_cons.mp hs with rfl | hs2
    · cases hi
    · simp only [List.mem_map, List.mem_range] at hs2
      obtain ⟨j, hj, rfl⟩ := hs2
      obtain rfl : j = i := by injection hi
      exact hj

theorem generate_all_possible_cards_mem (inst : List Instructions) (K : Nat)
    (hK : 1 ≤ K) (c : Card)
    (hc : c ∈ Machines.generate_all_possible_cards inst K) :
    c.insts.length = K ∧ ∀ i ∈ c.insts, i ∈ inst := by
  rw [Machines.generate_all_possible_cards,
    generate_combinations_eq_tuples inst K hK] at hc
  simp only [List.mem_map] at hc
  obtain ⟨tl, htl, rfl⟩ := hc
  exact mem_tuples inst K tl htl

theorem enumerate_tables_mem (cardsList : List Card) (N : Nat) (hN : 1 ≤ N)
    (T : Cards) (hT : T ∈ Machines.enumerate_tables cardsList N) :
    T.cards.length = N ∧ ∀ c ∈ T.cards, c ∈ cardsList := by
  rw [Machines.enumerate_tables,
    generate_combinations_eq_tuples cardsList N hN] at hT
  simp only [List.mem_map] at hT
  obtain ⟨tl, htl, rfl⟩ := hT
  exact mem_tuples cardsList N tl htl

/-- Every member of a successful panic-capable filter passed the predicate
and comes from the input list. -/
theorem filter_opt_mem {α : Type} (p : α → Option Bool) :
    ∀ (l out : List α), filter_opt p l = some out →
      ∀ x ∈ out, x ∈ l ∧ p x = some true := by
  intro l
  induction l with
  | nil =>
    intro out h x hx
    simp only [filter_opt] at h
    obtain rfl : ([] : List α) = out := by simpa using h
    simp at hx
  | cons a rest ih =>
    intro out h x hx
    simp only [filter_opt] at h
    cases hpa : p a with
    | none => rw [hpa] at h; simp at h
    | some b =>
      rw [hpa] at h
      cases hrest : filter_opt p rest with
      | none => rw [hrest] at h; simp at h
      | some out2 =>
        rw [hrest] at h
        have h2 : (if b then a :: out2 else out2) = out := by simpa using h
        subst h2
        by_cases hb : b
        · subst hb
          rw [if_pos rfl] at hx
          rcases List.mem_cons.mp hx with rfl | hx2
          · exact ⟨by simp, hpa⟩
          · obtain ⟨h1, h2⟩ := ih out2 hrest x hx2
            exact ⟨by simp [h1], h2⟩
        · simp only [Bool.not_eq_true] at hb
          subst hb
          rw [if_neg (by simp)] at hx
          obtain ⟨h1, h2⟩ := ih out2 hrest x hx
          exact ⟨by simp [h1], h2⟩

/-- Converse direction of `wf_spec`. -/
theorem wf_intro (cs : Cards) (K : Nat) (hK : 0 < K) (hne : cs.cards ≠ [])
    (h : ∀ c ∈ cs.cards, c.insts.length = K ∧
      ∀ inst ∈ c.insts, inst.write < K ∧
        ∀ i : Nat, inst.state = State.Card i → i < cs.cards.length) :
    Cards.wf cs K = true := by
  simp only [Cards.wf, Bool.and_eq_true, decide_eq_true_eq, List.all_eq_true]
  refine ⟨⟨hK, hne⟩, ?_⟩
  intro c hc
  obtain ⟨hlen, hrest⟩ := h c hc
  refine ⟨hlen, ?_⟩
  intro inst hin
  obtain ⟨hw, hst⟩ := hrest inst hin
  refine ⟨hw, ?_⟩
  cases hstate : inst.state with
  | Halt => rfl
  | Card i => simpa using hst i hstate

/-- Every table produced by `Machines::generate` is well-formed for its
symbol count. -/
theorem generate_mem_wf (N K : Nat) (M : Machines) (T : Cards)
    (hN : 1 ≤ N) (hgen : Machines.generate N K = some M)
    (hT : T ∈ M.machines) :
    Cards.wf T K = true := by
  rcases hfo : Machines.generate_all_possible_machines
      (Machines.generate_all_possible_cards
        (Machines.generate_instructions N K) K) N with _ | out
  · rw [Machines.generate, hfo] at hgen
    cases hgen
  · rw [Machines.generate, hfo] at hgen
    obtain rfl : Machines.mk out = M := by simpa using hgen
    replace hT : T ∈ out := hT
    rw [Machines.generate_all_possible_machines] at hfo
    obtain ⟨henum, _⟩ := filter_opt_mem Cards.contains_halt_state _ out hfo T hT
    cases K with
    | zero =>
      rw [generate_instructions_zero,
        Machines.generate_all_possible_cards, generate_combinations_nil,
        List.map_nil, Machines.enumerate_tables, generate_combinations_nil,
        List.map_nil] at henum
      cases henum
    | succ k =>
      obtain ⟨hlen, hcards⟩ :=
        enumerate_tables_mem _ N hN T henum
      refine wf_intro T (k + 1) (by omega) ?_ ?_
      · intro hnil
        rw [hnil] at hlen
        simp at hlen
        omega
      · intro c hc
        obtain ⟨hclen, hcmem⟩ :=
          generate_all_possible_cards_mem _ (k + 1) (by omega) c (hcards c hc)
        refine ⟨hclen, ?_⟩
        intro inst hin
        obtain ⟨hw, hstate⟩ :=
          generate_instructions_mem N (k + 1) inst (hcmem inst hin)
        refine ⟨hw, ?_⟩
        intro i hi
        rw [hlen]
        exact hstate i hi

/-- C8: every table produced by `Machines::generate N K` is well-formed, its
`busy_beaver` run can never panic (in particular `Card::get_instruction`
never indexes its `K`-entry row out of bounds), and every cell of every
recorded tape snapshot of a completed run holds a symbol in `[0, K)`. -/
theorem C8_symbols_in_range (N K : Nat) (M : Machines) (T : Cards)
    (hN : 1 ≤ N) (hgen : Machines.generate N K = some M)
    (hT : T ∈ M.machines) :
    Cards.wf T K = true ∧ busy_beaver T ≠ none ∧
    ∀ s, busy_beaver T = some (some s) →
      ∀ t ∈ s.tapes, ∀ x ∈ t.cells, x < K := by
  have hwf := generate_mem_wf N K M T hN hgen hT
  exact ⟨hwf, (busy_beaver_safe T K hwf).1, (busy_beaver_safe T K hwf).2⟩

set_option maxRecDepth 100000 in
/-- Witness for C8 at `N = 1`, `K = 2` and the concrete halting table. -/
theorem C8_symbols_in_range_witness :
    Cards.wf bb1_table 2 = true ∧ busy_beaver bb1_table ≠ none :=
  have hgen : Machines.generate 1 2 =
      some ((Machines.generate 1 2).getD ⟨[]⟩) := by
    rw [Machines.generate_eq_eval 1 2 (by omega) (by omega)]
    decide
  have hT : bb1_table ∈ ((Machines.generate 1 2).getD ⟨[]⟩).machines := by
    rw [Machines.generate_eq_eval 1 2 (by omega) (by omega)]
    decide
  have h := C8_symbols_in_range 1 2 ((Machines.generate 1 2).getD ⟨[]⟩)
    bb1_table (by omega) hgen hT
  ⟨h.1, h.2.1⟩

/-- C3: for every well-formed transition table the run cannot panic, so a
machine that does not reach `Halt` within the ceiling yields `Some none`
(Rust `None`, no statistics), and such an abandoned run executes exactly 101
loop iterations; the loop always terminates (the embedding is a total
function). -/
theorem C3_step_ceiling (cards : Cards) (K : Nat)
    (hwf : Cards.wf cards K = true) :
    busy_beaver cards ≠ none ∧
    (busy_beaver cards = some none →
      bb_iterations_from_start cards = some 101) := by
  refine ⟨(busy_beaver_safe cards K hwf).1, ?_⟩
  intro habd
  obtain ⟨c0, hinit, _⟩ := bb_init_wf cards K hwf
  rw [busy_beaver_init_some cards c0 hinit] at habd
  rw [bb_iterations_from_start, hinit]
  show some (bb_iterations cards c0 0) = some 101
  exact congrArg some
    (bbLoop_abandon_iterations cards 100 0 c0 (by omega) (by omega) habd)

set_option maxRecDepth 100000 in
/-- Witness for C3: the right-moving one-card loop never halts, is abandoned
as `Some none` and executes exactly 101 iterations. -/
theorem C3_step_ceiling_witness :
    Cards.wf loop_table 2 = true ∧ busy_beaver loop_table ≠ none ∧
    busy_beaver loop_table = some none ∧
    bb_iterations_from_start loop_table = some 101 :=
  have habd : busy_beaver loop_table = some none := by
    rw [busy_beaver_eq_eval]
    decide
  ⟨by decide, (C3_step_ceiling loop_table 2 (by decide)).1, habd,
    (C3_step_ceiling loop_table 2 (by decide)).2 habd⟩

/-- C4: every completed run's statistics satisfy `action = #snapshots - 1`
(an initial snapshot precedes the first step) and `score` counts exactly the
cells equal to the literal marker `1` in the final snapshot. -/
theorem C4_action_score (cards : Cards) (s : Stats)
    (h : busy_beaver cards = some (some s)) :
    s.tapes ≠ [] ∧ s.action + 1 = s.tapes.length ∧
    ∃ t, s.tapes.getLast? = some t ∧
      s.score = (t.cells.filter fun x => x == 1).length := by
  rcases hinit : bb_init cards with _ | c0
  · rw [busy_beaver_init_none cards hinit] at h
    cases h
  · rw [busy_beaver_init_some cards c0 hinit] at h
    obtain ⟨st, tape, tw, rfl⟩ :=
      bbLoop_halted_shape cards 100 0 c0 _ (by omega) h
    obtain ⟨h1, h2, h3, h4⟩ := update_shape st tape tw
    exact ⟨h1, h2, tape, h3, h4⟩

/-- The statistics of the completed `write2_table` run, written out. -/
def write2_stats : Stats :=
  { cards := write2_table, score := 0, action := 1,
    tapes := [⟨[0]⟩, ⟨[0, 2, 0]⟩], head_positions := [0, 1] }

set_option maxRecDepth 100000 in
/-- Witness for C4 on a K = 3 run that writes the symbol `2`: the final tape
`[0, 2, 0]` has one nonzero cell but score 0, confirming that score counts
only cells equal to the literal `1`. -/
theorem C4_action_score_witness :
    busy_beaver write2_table = some (some write2_stats) ∧
    write2_stats.action + 1 = write2_stats.tapes.length ∧
    (∃ t, write2_stats.tapes.getLast? = some t ∧
      write2_stats.score = (t.cells.filter fun x => x == 1).length) ∧
    write2_stats.score = 0 ∧
    ((⟨[0, 2, 0]⟩ : Tape).cells.filter fun x => x != 0).length = 1 :=
  have h : busy_beaver write2_table = some (some write2_stats) := by
    rw [busy_beaver_eq_eval]
    decide
  ⟨h, (C4_action_score write2_table write2_stats h).2.1,
    (C4_action_score write2_table write2_stats h).2.2, by decide, by decide⟩

/-- Table-level reading of the claim's filter condition: some instruction in
any per-symbol slot has next state `Halt`. -/
def has_halt_instruction (cs : Cards) : Bool :=
  cs.cards.any fun c => c.insts.any fun inst => inst.state == State.Halt

theorem get_states_total (cs : Cards)
    (h : ∀ c ∈ cs.cards, 2 ≤ c.insts.length) :
    ∃ l, cs.get_states = some l := by
  rw [Cards.get_states]
  suffices hgen : ∀ (cl : List Card), (∀ c ∈ cl, 2 ≤ c.insts.length) →
      ∀ acc : List State,
      ∃ l, cl.foldlM
        (fun states card => do
          let inst1 ← card.insts[0]?
          let inst2 ← card.insts[1]?
          pure (states ++ [inst1.state, inst2.state]))
        acc = some l by
    exact hgen cs.cards h []
  intro cl
  induction cl with
  | nil => intro _ acc; exact ⟨acc, rfl⟩
  | cons c rest ih =>
    intro hlen acc
    have h2 : 2 ≤ c.insts.length := hlen c (by simp)
    obtain ⟨i1, hi1⟩ : ∃ i1, c.insts[0]? = some i1 :=
      ⟨_, List.getElem?_eq_getElem (by omega)⟩
    obtain ⟨i2, hi2⟩ : ∃ i2, c.insts[1]? = some i2 :=
      ⟨_, List.getElem?_eq_getElem (by omega)⟩
    obtain ⟨l, hl⟩ := ih (fun c hc => hlen c (by simp [hc]))
      (acc ++ [i1.state, i2.state])
    refine ⟨l, ?_⟩
    rw [List.foldlM_cons, hi1, hi2]
    simpa using hl

theorem filter_opt_total {α : Type} (p : α → Option Bool) :
    ∀ l : List α, (∀ x ∈ l, ∃ b, p x = some b) →
      ∃ out, filter_opt p l = some out := by
  intro l
  induction l with
  | nil => intro _; exact ⟨[], rfl⟩
  | cons a rest ih =>
    intro h
    obtain ⟨b, hb⟩ := h a (by simp)
    obtain ⟨out, hout⟩ := ih fun x hx => h x (by simp [hx])
    refine ⟨if b then a :: out else out, ?_⟩
    simp [filter_opt, hb, hout]

/-- C1 (code bug): for `N = 1`, `K = 3` the enumerated table whose only Halt
sits in symbol slot 2 contains a halting instruction, yet
`contains_halt_state` (which inspects only instruction slots 0 and 1 of each
card) reports `false`, so `Machines::generate` wrongly drops the table from
its output. -/
theorem C1_halt_filter_bug :
    has_halt_instruction halt_in_slot2_table = true ∧
    halt_in_slot2_table ∈ Machines.enumerate_tables
      (Machines.generate_all_possible_cards
        (Machines.generate_instructions 1 3) 3) 1 ∧
    Cards.contains_halt_state halt_in_slot2_table = some false ∧
    ∃ M, Machines.generate 1 3 = some M ∧
      halt_in_slot2_table ∉ M.machines := by
  have hmem : halt_in_slot2_table ∈ Machines.enumerate_tables
      (Machines.generate_all_possible_cards
        (Machines.generate_instructions 1 3) 3) 1 := by
    rw [Machines.enumerate_tables,
      generate_combinations_eq_tuples _ 1 (by omega)]
    apply List.mem_map.mpr
    refine ⟨[Card.mk [⟨0, Direction.Left, State.Card 0⟩,
      ⟨0, Direction.Left, State.Card 0⟩,
      ⟨0, Direction.Left, State.Halt⟩]], ?_, rfl⟩
    apply tuples_complete
    · rfl
    · intro c hc
      rcases List.mem_singleton.mp hc with rfl
      rw [Machines.generate_all_possible_cards,
        generate_combinations_eq_tuples _ 3 (by omega)]
      apply List.mem_map.mpr
      refine ⟨[⟨0, Direction.Left, State.Card 0⟩,
        ⟨0, Direction.Left, State.Card 0⟩,
        ⟨0, Direction.Left, State.Halt⟩], ?_, rfl⟩
      apply tuples_complete
      · rfl
      · intro inst hin
        fin_cases hin <;> decide
  refine ⟨by decide, hmem, by decide, ?_⟩
  have htot : ∃ out, Machines.generate_all_possible_machines
      (Machines.generate_all_possible_cards
        (Machines.generate_instructions 1 3) 3) 1 = some out := by
    rw [Machines.generate_all_possible_machines]
    apply filter_opt_total
    intro T hT
    obtain ⟨_, hcards⟩ := enumerate_tables_mem _ 1 (by omega) T hT
    have h2 : ∀ c ∈ T.cards, 2 ≤ c.insts.length := by
      intro c hc
      have := (generate_all_possible_cards_mem _ 3 (by omega) c
        (hcards c hc)).1
      omega
    obtain ⟨l, hl⟩ := get_states_total T h2
    exact ⟨l.contains State.Halt, by simp [Cards.contains_halt_state, hl]⟩
  obtain ⟨out, hout⟩ := htot
  refine ⟨Machines.mk out, ?_, ?_⟩
  · rw [Machines.generate, hout]
    rfl
  · intro hmem2
    replace hmem2 : halt_in_slot2_table ∈ out := hmem2
    have := (filter_opt_mem Cards.contains_halt_state _ out hout
      halt_in_slot2_table hmem2).2
    rw [show Cards.contains_halt_state halt_in_slot2_table = some false
      from by decide] at this
    cases this

end BusyBeaver
